import Mathlib

set_option linter.unnecessarySeqFocus false

/-!
A shallow embedding of the ingestion worker in src/jsons2mysql.py.

Worker.process_file (lines 68-106) decodes one JSON file, checks for a
duplicate key, inserts a row, commits, and removes the source file; its
handler catches only IOError and JSONDecodeError (in Python 3 the OSError
raised by os.remove is an IOError, so a failed deletion is caught too),
while a KeyError from a missing field and a mysql error escape the
function. Worker.run (lines 32-66) submits files in batches of at most
batch_size, waits for every future of the batch, adds the batch length to
loaded_files, emits progress and rate events, and after the loop emits a
completion event; its own handler catches any escaped exception, logs it
and emits an error completion event, ending the run early. An exception
raised inside a batch surfaces at the future.result() call of the flush,
after every file of that batch has executed; files of later batches are
never submitted.

Storage is modelled as the set of primary keys of the data_json table,
the filesystem as the set of existing paths. Wall-clock time is abstracted
away: the elapsed time measured at a batch boundary is taken to be
positive, so the rate event is recorded with the cumulative count that the
rate is computed from. Failures of the external world are injected per
file: checkFault makes the SELECT COUNT query raise a mysql error,
insertFault makes the INSERT or commit raise a mysql error, removeFault
makes os.remove raise an OSError.
-/

/-- Messages carried on the log and on the finished channel.
fileError p models the string built at lines 105-106, runError the
strings of lines 65-66, dupReport n the string of line 62 when the
duplicate list is nonempty, allOk its else branch. -/
inductive Msg
  | fileError (path : String)
  | runError
  | dupReport (n : Nat)
  | allOk
deriving DecidableEq

/-- The exceptions that can leave the try body of process_file. -/
inductive Exc
  | decodeErr
  | keyErr (field : String)
  | dbErr
  | ioErr
deriving DecidableEq

/-- Whether the except clause at line 104, except (IOError,
json.JSONDecodeError), catches the exception. In Python 3 IOError is
OSError, so ioErr from os.remove is caught. -/
def Exc.fileScoped : Exc → Bool
  | .decodeErr => true
  | .ioErr => true
  | .keyErr _ => false
  | .dbErr => false

/-- The observable actions of one call of process_file, in order. -/
inductive Act
  | dupCheck (key : Int)
  | appendDup (path : String)
  | insertRow (key : Int)
  | commit
  | removeFile (path : String)
  | logError (path : String)
  | emitFinished
deriving DecidableEq

/-- What one input file decodes to: unreadable covers an IOError on open
and invalid JSON; missingAcik an object without the acikAdresModel key
(KeyError at line 72); missingAdres an object with acikAdresModel but
without adresNo (KeyError at line 77); record a well-formed record with
its unique key. -/
inductive FileContent
  | unreadable
  | missingAcik
  | missingAdres
  | record (adresNo : Int)
deriving DecidableEq

/-- One input file together with the injected storage and filesystem
faults for its processing. -/
structure FileSpec where
  path : String
  content : FileContent
  checkFault : Bool
  insertFault : Bool
  removeFault : Bool
deriving DecidableEq

/-- The state visible to the worker: the keys stored in data_json, the
paths existing on disk, the shared duplicate list, the error log, and
the three event channels (progress events carry the loaded/total pair,
rate events the cumulative count the rate is computed from). -/
structure St where
  store : Finset Int
  filesOnDisk : Finset String
  duplicates : List String
  errorLog : List Msg
  progressEvents : List (Nat × Nat)
  rateEvents : List Nat
  finishedEvents : List Msg
deriving DecidableEq

/-- The except clause at lines 104-106: log the error with the file
identity and emit an error message on the finished channel. -/
def fileErrSt (st : St) (p : String) : St :=
  { st with errorLog := st.errorLog ++ [Msg.fileError p],
            finishedEvents := st.finishedEvents ++ [Msg.fileError p] }

/-- Worker.process_file, lines 68-106. Open and decode the file, check
the key against data_json (lines 75-82), insert and commit (lines
84-100), then remove the source file (line 102). The paths that raise
decodeErr or ioErr end in the except clause (fileErrSt); keyErr and
dbErr are not caught and are returned as the escaping exception. -/
def process_file (st : St) (f : FileSpec) : St × List Act × Option Exc :=
  match f.content with
  | FileContent.unreadable =>
      (fileErrSt st f.path, [Act.logError f.path, Act.emitFinished], none)
  | FileContent.missingAcik => (st, [], some (Exc.keyErr "acikAdresModel"))
  | FileContent.missingAdres => (st, [], some (Exc.keyErr "adresNo"))
  | FileContent.record key =>
      if f.checkFault then (st, [], some Exc.dbErr)
      else if key ∈ st.store then
        ({ st with duplicates := st.duplicates ++ [f.path] },
         [Act.dupCheck key, Act.appendDup f.path], none)
      else if f.insertFault then (st, [Act.dupCheck key], some Exc.dbErr)
      else if f.removeFault then
        (fileErrSt { st with store := insert key st.store } f.path,
         [Act.dupCheck key, Act.insertRow key, Act.commit,
          Act.logError f.path, Act.emitFinished], none)
      else
        ({ st with store := insert key st.store,
                   filesOnDisk := st.filesOnDisk.erase f.path },
         [Act.dupCheck key, Act.insertRow key, Act.commit,
          Act.removeFile f.path], none)

/-- Scans a trace: true iff no removeFile action occurs before the first
commit action. -/
def removeAfterCommit : List Act → Bool
  | [] => true
  | Act.commit :: _ => true
  | Act.removeFile _ :: _ => false
  | _ :: tr => removeAfterCommit tr

/-- The first escaped exception of a batch: future.result() at line 49
raises the exception of the earliest failed future. -/
def firstExc : Option Exc → Option Exc → Option Exc
  | some e, _ => some e
  | none, e => e

/-- The batch-boundary emissions of lines 51-57: one progress event with
the cumulative count over the total, and one rate event recorded with
the cumulative count. -/
def pushEvents (st : St) (loaded total : Nat) : St :=
  { st with progressEvents := st.progressEvents ++ [(loaded, total)],
            rateEvents := st.rateEvents ++ [loaded] }

/-- The handler of Worker.run at lines 64-66: log a general error and
emit an error message on the finished channel; the run ends. -/
def runAbort (st : St) : St :=
  { st with errorLog := st.errorLog ++ [Msg.runError],
            finishedEvents := st.finishedEvents ++ [Msg.runError] }

/-- The loop of Worker.run, lines 42-59. pending is the length of the
futures list before this file is appended; the flush condition of line
46 is len(futures) >= batch_size or index == total - 1, and rest = []
states index = total - 1. At a flush, a pending escaped exception
surfaces at future.result() and the run handler takes over; otherwise
loaded grows by the batch length and the batch events are emitted. The
returned flag records whether the run was aborted. -/
def runLoop (B total : Nat) :
    List FileSpec → Nat → Nat → Option Exc → St → St × Bool
  | [], _, _, _, st => (st, false)
  | f :: rest, loaded, pending, excAcc, st =>
      if B ≤ pending + 1 ∨ rest = [] then
        match firstExc excAcc (process_file st f).2.2 with
        | some _ => (runAbort (process_file st f).1, true)
        | none =>
            runLoop B total rest (loaded + pending + 1) 0 none
              (pushEvents (process_file st f).1 (loaded + pending + 1) total)
      else
        runLoop B total rest loaded (pending + 1)
          (firstExc excAcc (process_file st f).2.2) (process_file st f).1

/-- The completion message of lines 61-62: the conditional expression
binds below the concatenation, so a run with duplicates reports the
duplicate count and a run without reports plain success. -/
def finalMsg (dups : List String) : Msg :=
  if dups.isEmpty then Msg.allOk else Msg.dupReport dups.length

/-- Worker.run, lines 32-66: reset the duplicate list, process the files
through the batched loop, and emit the completion message unless the
run was aborted by an escaped exception. -/
def Worker.run (B : Nat) (files : List FileSpec) (st : St) : St :=
  match runLoop B files.length files 0 0 none { st with duplicates := [] } with
  | (st1, true) => st1
  | (st1, false) =>
      { st1 with finishedEvents := st1.finishedEvents ++ [finalMsg st1.duplicates] }

/-- A file whose processing raises no exception that escapes
process_file: its content is not missing a required key and no storage
fault is injected. An unreadable file and a failed deletion are allowed,
since those are caught inside process_file. -/
def FileOk (f : FileSpec) : Prop :=
  f.content ≠ FileContent.missingAcik ∧ f.content ≠ FileContent.missingAdres ∧
    f.checkFault = false ∧ f.insertFault = false

instance (f : FileSpec) : Decidable (FileOk f) := by
  unfold FileOk; infer_instance

/-- The progress events the loop of Worker.run emits for n remaining
files, given the cumulative count already loaded and the current length
of the futures list. -/
def progressSpec (B total : Nat) : Nat → Nat → Nat → List (Nat × Nat)
  | 0, _, _ => []
  | n + 1, loaded, pending =>
      if B ≤ pending + 1 ∨ n = 0 then
        (loaded + pending + 1, total) ::
          progressSpec B total n (loaded + pending + 1) 0
      else
        progressSpec B total n loaded (pending + 1)

/-- An initial run state: the keys already stored, the files on disk,
everything else empty. -/
def initSt (store : Finset Int) (files : Finset String) : St :=
  ⟨store, files, [], [], [], [], []⟩

/-- A small concrete world for witnesses: key 1 is already stored and
three files exist on disk. -/
def stW : St := initSt {1} {"a.json", "b.json", "c.json"}

/-- A well-formed fresh record, no faults. -/
def okFile : FileSpec := ⟨"c.json", FileContent.record 7, false, false, false⟩

/-- A well-formed record whose key 1 is already stored. -/
def dupFile : FileSpec := ⟨"a.json", FileContent.record 1, false, false, false⟩

/-- A file with unreadable or malformed JSON. -/
def badFile : FileSpec := ⟨"b.json", FileContent.unreadable, false, false, false⟩

/-- A well-formed record whose duplicate-check query raises a mysql error. -/
def checkFaultFile : FileSpec := ⟨"a.json", FileContent.record 3, true, false, false⟩

/-- A JSON object lacking the required adresNo key. -/
def missingKeyFile : FileSpec := ⟨"a.json", FileContent.missingAdres, false, false, false⟩

/-- A well-formed fresh record whose os.remove raises an OSError. -/
def removeFaultFile : FileSpec := ⟨"c.json", FileContent.record 7, false, false, true⟩

lemma process_file_progressEvents (st : St) (f : FileSpec) :
    (process_file st f).1.progressEvents = st.progressEvents := by
  rcases hc : f.content with _ | _ | _ | key <;>
    simp only [process_file, hc, fileErrSt] <;> repeat' first | rfl | split

lemma process_file_rateEvents (st : St) (f : FileSpec) :
    (process_file st f).1.rateEvents = st.rateEvents := by
  rcases hc : f.content with _ | _ | _ | key <;>
    simp only [process_file, hc, fileErrSt] <;> repeat' first | rfl | split

lemma process_file_ok_exc (st : St) (f : FileSpec) (h : FileOk f) :
    (process_file st f).2.2 = none := by
  obtain ⟨h1, h2, h3, h4⟩ := h
  rcases hc : f.content with _ | _ | _ | key <;>
    simp_all [process_file, hc] <;> repeat' first | rfl | split

lemma process_file_errorLog_mono (st : St) (f : FileSpec) (x : Msg)
    (h : x ∈ st.errorLog) : x ∈ (process_file st f).1.errorLog := by
  rcases hc : f.content with _ | _ | _ | key <;>
    simp only [process_file, hc, fileErrSt] <;>
    repeat' first | simp [List.mem_append, h] | split

lemma process_file_keeps_file (st : St) (f : FileSpec) (p : String)
    (hp : p ∈ st.filesOnDisk) (hne : f.path = p → f.content = FileContent.unreadable) :
    p ∈ (process_file st f).1.filesOnDisk := by
  rcases hc : f.content with _ | _ | _ | key <;>
    simp only [process_file, hc, fileErrSt]
  · exact hp
  · exact hp
  · exact hp
  · have hne2 : f.path ≠ p := fun h => by simp [hne h] at hc
    repeat' first
      | exact hp
      | exact Finset.mem_erase.mpr ⟨hne2.symm, hp⟩
      | split

lemma runLoop_cons_flush (B total loaded pending : Nat) (f : FileSpec)
    (rest : List FileSpec) (st : St) (hcond : B ≤ pending + 1 ∨ rest = [])
    (hexc : (process_file st f).2.2 = none) :
    runLoop B total (f :: rest) loaded pending none st =
      runLoop B total rest (loaded + pending + 1) 0 none
        (pushEvents (process_file st f).1 (loaded + pending + 1) total) := by
  rw [runLoop, if_pos hcond, hexc]
  rfl

lemma runLoop_cons_step (B total loaded pending : Nat) (f : FileSpec)
    (rest : List FileSpec) (st : St) (excAcc : Option Exc)
    (hcond : ¬(B ≤ pending + 1 ∨ rest = [])) :
    runLoop B total (f :: rest) loaded pending excAcc st =
      runLoop B total rest loaded (pending + 1)
        (firstExc excAcc (process_file st f).2.2) (process_file st f).1 := by
  rw [runLoop, if_neg hcond]

lemma runLoop_ok (B total : Nat) (rest : List FileSpec) :
    ∀ (loaded pending : Nat) (st : St), (∀ f ∈ rest, FileOk f) →
      (runLoop B total rest loaded pending none st).2 = false ∧
      (runLoop B total rest loaded pending none st).1.progressEvents =
        st.progressEvents ++ progressSpec B total rest.length loaded pending := by
  induction rest with
  | nil => intro loaded pending st _; simp [runLoop, progressSpec]
  | cons f rest ih =>
    intro loaded pending st hok
    have hf := hok f (List.mem_cons_self f rest)
    have hexc : (process_file st f).2.2 = none := process_file_ok_exc st f hf
    have hokr : ∀ g ∈ rest, FileOk g := fun g hg => hok g (List.mem_cons_of_mem f hg)
    by_cases hcond : B ≤ pending + 1 ∨ rest = []
    · have hcond2 : B ≤ pending + 1 ∨ rest.length = 0 := by
        rcases hcond with h | h
        · exact Or.inl h
        · exact Or.inr (by simp [h])
      rw [runLoop_cons_flush B total loaded pending f rest st hcond hexc]
      obtain ⟨h1, h2⟩ := ih (loaded + pending + 1) 0
        (pushEvents (process_file st f).1 (loaded + pending + 1) total) hokr
      refine ⟨h1, ?_⟩
      rw [h2]
      simp only [pushEvents, process_file_progressEvents, List.length_cons]
      rw [progressSpec, if_pos hcond2]
      simp [List.append_assoc]
    · have hcond2 : ¬(B ≤ pending + 1 ∨ rest.length = 0) := by
        intro h
        rcases h with h | h
        · exact hcond (Or.inl h)
        · exact hcond (Or.inr (List.length_eq_zero.mp h))
      rw [runLoop_cons_step B total loaded pending f rest st none hcond, hexc]
      obtain ⟨h1, h2⟩ := ih loaded (pending + 1) (process_file st f).1 hokr
      simp only [firstExc]
      refine ⟨h1, ?_⟩
      rw [h2]
      simp only [process_file_progressEvents, List.length_cons]
      rw [progressSpec, if_neg hcond2]

lemma progressSpec_step (B total : Nat) :
    ∀ (n pending loaded : Nat), pending < B → 0 < n →
      progressSpec B total n loaded pending =
        (loaded + pending + min (B - pending) n, total) ::
          progressSpec B total (n - min (B - pending) n)
            (loaded + pending + min (B - pending) n) 0 := by
  intro n
  induction n with
  | zero => intro pending loaded _ h; exact absurd h (by omega)
  | succ m ih =>
    intro pending loaded hp _
    rcases Nat.eq_zero_or_pos m with hm | hm
    · subst hm
      rw [progressSpec, if_pos (Or.inr rfl)]
      have h1 : min (B - pending) 1 = 1 := by omega
      rw [h1]
    · by_cases hc : B ≤ pending + 1
      · rw [progressSpec, if_pos (Or.inl hc)]
        have h1 : min (B - pending) (m + 1) = 1 := by omega
        rw [h1]
        norm_num
      · rw [progressSpec, if_neg (by omega)]
        rw [ih (pending + 1) loaded (by omega) hm]
        have h1 : min (B - (pending + 1)) m + 1 = min (B - pending) (m + 1) := by omega
        have h2 : loaded + (pending + 1) + min (B - (pending + 1)) m =
            loaded + pending + min (B - pending) (m + 1) := by omega
        have h3 : m - min (B - (pending + 1)) m = m + 1 - min (B - pending) (m + 1) := by omega
        rw [h2, h3]

lemma progressSpec_closed (B total : Nat) (hB : 1 ≤ B) :
    ∀ (n loaded : Nat), progressSpec B total n loaded 0 =
      (List.range ((n + B - 1) / B)).map
        (fun k => (loaded + min (B * (k + 1)) n, total)) := by
  intro n
  induction n using Nat.strong_induction_on with
  | _ n ih =>
    intro loaded
    rcases Nat.eq_zero_or_pos n with h0 | hpos
    · subst h0
      have hdiv : (0 + B - 1) / B = 0 := Nat.div_eq_of_lt (by omega)
      rw [hdiv]
      simp [progressSpec]
    · rw [progressSpec_step B total n 0 loaded hB hpos]
      rcases le_or_lt n B with hle | hlt
      · have hmin : min (B - 0) n = n := by omega
        have hdiv : (n + B - 1) / B = 1 := by
          apply Nat.div_eq_of_lt_le <;> omega
        rw [hmin, hdiv]
        have hn0 : n - n = 0 := by omega
        rw [hn0]
        have hmap : min (B * (0 + 1)) n = n := by
          have : B * (0 + 1) = B := by ring
          omega
        simp [progressSpec, List.range_succ, hmap]
        omega
      · have hmin : min (B - 0) n = B := by omega
        rw [hmin]
        rw [ih (n - B) (by omega) (loaded + 0 + B)]
        have hdiv : (n + B - 1) / B = (n - B + B - 1) / B + 1 := by
          have he : n + B - 1 = (n - B + B - 1) + B := by omega
          rw [he, Nat.add_div_right _ (by omega)]
        rw [hdiv, List.range_succ_eq_map, List.map_cons, List.map_map]
        have hhead : loaded + min (B * (0 + 1)) n = loaded + 0 + B := by
          have : B * (0 + 1) = B := by ring
          omega
        rw [← hhead]
        congr 1
        apply List.map_congr_left
        intro k _
        simp only [Function.comp_apply, Nat.succ_eq_add_one]
        have he2 : B * (k + 1 + 1) = B * (k + 1) + B := by ring
        simp only [Prod.mk.injEq]
        refine ⟨by omega, trivial⟩

lemma runLoop_errorLog_mono (B total : Nat) (rest : List FileSpec) :
    ∀ (loaded pending : Nat) (excAcc : Option Exc) (st : St) (x : Msg),
      x ∈ st.errorLog → x ∈ (runLoop B total rest loaded pending excAcc st).1.errorLog := by
  induction rest with
  | nil => intro _ _ _ st x hx; simpa [runLoop] using hx
  | cons f rest ih =>
    intro loaded pending excAcc st x hx
    have hx1 : x ∈ (process_file st f).1.errorLog := process_file_errorLog_mono st f x hx
    by_cases hcond : B ≤ pending + 1 ∨ rest = []
    · rw [runLoop, if_pos hcond]
      rcases hfe : firstExc excAcc (process_file st f).2.2 with _ | e
      · exact ih _ _ _ _ x (by simpa [pushEvents] using hx1)
      · show x ∈ (runAbort (process_file st f).1).errorLog
        simp [runAbort, hx1]
    · rw [runLoop, if_neg hcond]
      exact ih _ _ _ _ x hx1

lemma runLoop_keeps_file (B total : Nat) (rest : List FileSpec) :
    ∀ (loaded pending : Nat) (excAcc : Option Exc) (st : St) (p : String),
      p ∈ st.filesOnDisk →
      (∀ f ∈ rest, f.path = p → f.content = FileContent.unreadable) →
      p ∈ (runLoop B total rest loaded pending excAcc st).1.filesOnDisk := by
  induction rest with
  | nil => intro _ _ _ st p hp _; simpa [runLoop] using hp
  | cons f rest ih =>
    intro loaded pending excAcc st p hp hun
    have hp1 : p ∈ (process_file st f).1.filesOnDisk :=
      process_file_keeps_file st f p hp (hun f (List.mem_cons_self f rest))
    have hunr : ∀ g ∈ rest, g.path = p → g.content = FileContent.unreadable :=
      fun g hg => hun g (List.mem_cons_of_mem f hg)
    by_cases hcond : B ≤ pending + 1 ∨ rest = []
    · rw [runLoop, if_pos hcond]
      rcases hfe : firstExc excAcc (process_file st f).2.2 with _ | e
      · exact ih _ _ _ _ p (by simpa [pushEvents] using hp1) hunr
      · show p ∈ (runAbort (process_file st f).1).filesOnDisk
        simpa [runAbort] using hp1
    · rw [runLoop, if_neg hcond]
      exact ih _ _ _ _ p hp1 hunr

lemma runLoop_log_unreadable (B total : Nat) (rest : List FileSpec) :
    ∀ (loaded pending : Nat) (st : St) (g : FileSpec),
      (∀ f ∈ rest, FileOk f) → g ∈ rest → g.content = FileContent.unreadable →
      Msg.fileError g.path ∈ (runLoop B total rest loaded pending none st).1.errorLog := by
  induction rest with
  | nil => intro _ _ _ _ _ hg _; simp at hg
  | cons f rest ih =>
    intro loaded pending st g hok hg hc
    have hf := hok f (List.mem_cons_self f rest)
    have hexc := process_file_ok_exc st f hf
    have hokr : ∀ x ∈ rest, FileOk x := fun x hx => hok x (List.mem_cons_of_mem f hx)
    rcases List.mem_cons.mp hg with rfl | hgr
    · have hentry : Msg.fileError g.path ∈ (process_file st g).1.errorLog := by
        simp [process_file, hc, fileErrSt]
      by_cases hcond : B ≤ pending + 1 ∨ rest = []
      · rw [runLoop_cons_flush B total loaded pending g rest st hcond hexc]
        exact runLoop_errorLog_mono B total rest _ _ _ _ _
          (by simpa [pushEvents] using hentry)
      · rw [runLoop_cons_step B total loaded pending g rest st none hcond, hexc]
        exact runLoop_errorLog_mono B total rest _ _ _ _ _ hentry
    · by_cases hcond : B ≤ pending + 1 ∨ rest = []
      · rw [runLoop_cons_flush B total loaded pending f rest st hcond hexc]
        exact ih _ _ _ g hokr hgr hc
      · rw [runLoop_cons_step B total loaded pending f rest st none hcond, hexc]
        exact ih _ _ _ g hokr hgr hc

lemma worker_run_ok (B : Nat) (fs : List FileSpec) (st : St)
    (hok : ∀ f ∈ fs, FileOk f) :
    Worker.run B fs st =
      { (runLoop B fs.length fs 0 0 none { st with duplicates := [] }).1 with
          finishedEvents :=
            (runLoop B fs.length fs 0 0 none
              { st with duplicates := [] }).1.finishedEvents ++
              [finalMsg (runLoop B fs.length fs 0 0 none
                { st with duplicates := [] }).1.duplicates] } := by
  have h := (runLoop_ok B fs.length fs 0 0 { st with duplicates := [] } hok).1
  unfold Worker.run
  rcases hr : runLoop B fs.length fs 0 0 none { st with duplicates := [] } with ⟨st1, b⟩
  rw [hr] at h
  simp only at h
  subst h
  rfl

lemma run_progressEvents (B : Nat) (hB : 1 ≤ B) (fs : List FileSpec) (st : St)
    (hok : ∀ f ∈ fs, FileOk f) :
    (Worker.run B fs st).progressEvents =
      st.progressEvents ++ (List.range ((fs.length + B - 1) / B)).map
        (fun k => (min (B * (k + 1)) fs.length, fs.length)) := by
  rw [worker_run_ok B fs st hok]
  have h2 := (runLoop_ok B fs.length fs 0 0 { st with duplicates := [] } hok).2
  show (runLoop B fs.length fs 0 0 none { st with duplicates := [] }).1.progressEvents = _
  rw [h2, progressSpec_closed B fs.length hB fs.length 0]
  simp

lemma getLast_range_map {α : Type} (m : Nat) (hm : 0 < m) (f : Nat → α) :
    ((List.range m).map f).getLast? = some (f (m - 1)) := by
  obtain ⟨t, rfl⟩ := Nat.exists_eq_succ_of_ne_zero (Nat.pos_iff_ne_zero.mp hm)
  rw [List.range_succ, List.map_append]
  simp

lemma ceil_le_mul (B N : Nat) (hB : 1 ≤ B) : N ≤ B * ((N + B - 1) / B) := by
  have h1 := Nat.div_add_mod (N + B - 1) B
  have h2 : (N + B - 1) % B < B := Nat.mod_lt _ (by omega)
  omega

lemma ceil_pos (B N : Nat) (hB : 1 ≤ B) (hN : 1 ≤ N) : 1 ≤ (N + B - 1) / B := by
  rw [Nat.one_le_div_iff (by omega)]
  omega

lemma process_file_removeAfterCommit (st : St) (f : FileSpec) :
    removeAfterCommit (process_file st f).2.1 = true := by
  rcases hc : f.content with _ | _ | _ | key <;>
    simp only [process_file, hc] <;> repeat' first | rfl | split

lemma run_progress_last (B : Nat) (hB : 1 ≤ B) (fs : List FileSpec) (st : St)
    (hok : ∀ f ∈ fs, FileOk f) (hne : fs ≠ []) (h0 : st.progressEvents = []) :
    (Worker.run B fs st).progressEvents.getLast? = some (fs.length, fs.length) := by
  have h := run_progressEvents B hB fs st hok
  rw [h0, List.nil_append] at h
  rw [h]
  have hpos : 0 < fs.length := List.length_pos.mpr hne
  have hm : 1 ≤ (fs.length + B - 1) / B := ceil_pos B fs.length hB (by omega)
  rw [getLast_range_map _ (by omega) _]
  have h3 : (fs.length + B - 1) / B - 1 + 1 = (fs.length + B - 1) / B := by omega
  simp only [h3]
  have h2 := ceil_le_mul B fs.length hB
  rw [min_eq_right h2]

/-- Claim C1: for every file whose record has a key that already exists in
storage before processing (with the duplicate-check query succeeding), the
processing of that file performs no insert (the stored keys are unchanged),
never deletes the source file (the disk is unchanged), appends the file
path to the duplicate list exactly once, and raises nothing. -/
theorem dup_key_no_insert_no_delete_one_report (st : St) (f : FileSpec) (key : Int)
    (hc : f.content = FileContent.record key) (hcf : f.checkFault = false)
    (hk : key ∈ st.store) :
    (process_file st f).1.store = st.store ∧
    (process_file st f).1.filesOnDisk = st.filesOnDisk ∧
    (process_file st f).1.duplicates = st.duplicates ++ [f.path] ∧
    (process_file st f).2.2 = none := by
  simp [process_file, hc, hcf, hk]

theorem dup_key_no_insert_no_delete_one_report_witness :
    (dupFile.content = FileContent.record 1 ∧ dupFile.checkFault = false ∧
      (1 : Int) ∈ stW.store) ∧
    ((process_file stW dupFile).1.store = stW.store ∧
      (process_file stW dupFile).1.filesOnDisk = stW.filesOnDisk ∧
      (process_file stW dupFile).1.duplicates = stW.duplicates ++ [dupFile.path] ∧
      (process_file stW dupFile).2.2 = none) :=
  ⟨by decide,
   dup_key_no_insert_no_delete_one_report stW dupFile 1 (by decide) (by decide) (by decide)⟩

/-- Claim C2: in every execution of the per-file pipeline the source file
is deleted only after the insert has been committed (no removeFile action
ever occurs before a commit action in any trace of process_file), and for
every successfully inserted record (fresh key, no injected fault) the row
is stored and the source file is erased from disk after processing. -/
theorem delete_only_after_commit (st : St) (f : FileSpec) (key : Int)
    (hc : f.content = FileContent.record key) (h1 : f.checkFault = false)
    (h2 : f.insertFault = false) (h3 : f.removeFault = false) (hk : key ∉ st.store) :
    (∀ (st2 : St) (g : FileSpec), removeAfterCommit (process_file st2 g).2.1 = true) ∧
    key ∈ (process_file st f).1.store ∧
    (process_file st f).1.filesOnDisk = st.filesOnDisk.erase f.path ∧
    f.path ∉ (process_file st f).1.filesOnDisk := by
  refine ⟨process_file_removeAfterCommit, ?_⟩
  simp [process_file, hc, h1, h2, h3, hk, Finset.mem_insert, Finset.not_mem_erase]

theorem delete_only_after_commit_witness :
    (okFile.content = FileContent.record 7 ∧ okFile.checkFault = false ∧
      okFile.insertFault = false ∧ okFile.removeFault = false ∧
      (7 : Int) ∉ stW.store) ∧
    ((∀ (st2 : St) (g : FileSpec), removeAfterCommit (process_file st2 g).2.1 = true) ∧
      7 ∈ (process_file stW okFile).1.store ∧
      (process_file stW okFile).1.filesOnDisk = stW.filesOnDisk.erase okFile.path ∧
      okFile.path ∉ (process_file stW okFile).1.filesOnDisk) :=
  ⟨by decide,
   delete_only_after_commit stW okFile 7 (by decide) (by decide) (by decide) (by decide)
     (by decide)⟩

/-- Claim C3, amended: a storage error during the duplicate check or the
insert does not trigger file disposal and leaves storage, disk and the
duplicate list unchanged, but it is not file-scoped: the except clause of
process_file does not cover it, so it escapes, and the run-level handler
logs a general error, emits a single error completion event and ends the
run; files submitted after the failing batch are never processed (the
result does not depend on fs2). -/
theorem storage_error_aborts_run (st : St) (f : FileSpec) (key : Int)
    (fs2 : List FileSpec) (hc : f.content = FileContent.record key) :
    (f.checkFault = true → process_file st f = (st, [], some Exc.dbErr)) ∧
    (f.checkFault = false → f.insertFault = true → key ∉ st.store →
      process_file st f = (st, [Act.dupCheck key], some Exc.dbErr)) ∧
    Exc.dbErr.fileScoped = false ∧
    (f.checkFault = true →
      Worker.run 1 (f :: fs2) st = runAbort { st with duplicates := [] }) := by
  refine ⟨?_, ?_, rfl, ?_⟩
  · intro hcf; simp [process_file, hc, hcf]
  · intro hcf hif hk; simp [process_file, hc, hcf, hif, hk]
  · intro hcf
    have hpf : process_file { st with duplicates := [] } f =
        ({ st with duplicates := [] }, [], some Exc.dbErr) := by
      simp [process_file, hc, hcf]
    unfold Worker.run
    rw [runLoop, if_pos (Or.inl (by omega)), hpf]
    rfl

/-- Claim C3, counterexample to the original claim: with batch size 1, a
duplicate-check storage error on the first file aborts the whole run; the
second, fault-free file is never inserted, its source file stays on disk,
no progress event is emitted, and the only completion event is the
run-level error, contradicting that such an error aborts only the failing
file. -/
theorem storage_error_not_file_scoped_cex :
    (Worker.run 1 [checkFaultFile, okFile] stW).finishedEvents = [Msg.runError] ∧
    (7 : Int) ∉ (Worker.run 1 [checkFaultFile, okFile] stW).store ∧
    "c.json" ∈ (Worker.run 1 [checkFaultFile, okFile] stW).filesOnDisk ∧
    (Worker.run 1 [checkFaultFile, okFile] stW).progressEvents = [] := by decide

theorem storage_error_aborts_run_witness :
    (checkFaultFile.content = FileContent.record 3) ∧
    ((checkFaultFile.checkFault = true →
        process_file stW checkFaultFile = (stW, [], some Exc.dbErr)) ∧
      (checkFaultFile.checkFault = false → checkFaultFile.insertFault = true →
        (3 : Int) ∉ stW.store →
        process_file stW checkFaultFile = (stW, [Act.dupCheck 3], some Exc.dbErr)) ∧
      Exc.dbErr.fileScoped = false ∧
      (checkFaultFile.checkFault = true →
        Worker.run 1 (checkFaultFile :: [okFile]) stW =
          runAbort { stW with duplicates := [] })) :=
  ⟨by decide, storage_error_aborts_run stW checkFaultFile 3 [okFile] (by decide)⟩

/-- Claim C4, amended: a JSON object lacking a required key (adresNo or
acikAdresModel) raises a KeyError that the per-file except clause does not
catch: the failure escapes process_file unchanged, and with it at a batch
boundary the run-level handler logs a general error, emits an error
completion event and ends the run, so the failure is run-scoped rather
than file-scoped. -/
theorem missing_key_aborts_run (st : St) (f : FileSpec) (fs2 : List FileSpec) :
    (f.content = FileContent.missingAdres →
      process_file st f = (st, [], some (Exc.keyErr "adresNo"))) ∧
    (f.content = FileContent.missingAcik →
      process_file st f = (st, [], some (Exc.keyErr "acikAdresModel"))) ∧
    (∀ s, (Exc.keyErr s).fileScoped = false) ∧
    (f.content = FileContent.missingAdres →
      Worker.run 1 (f :: fs2) st = runAbort { st with duplicates := [] }) := by
  refine ⟨?_, ?_, fun s => rfl, ?_⟩
  · intro hc; simp [process_file, hc]
  · intro hc; simp [process_file, hc]
  · intro hc
    have hpf : process_file { st with duplicates := [] } f =
        ({ st with duplicates := [] }, [], some (Exc.keyErr "adresNo")) := by
      simp [process_file, hc]
    unfold Worker.run
    rw [runLoop, if_pos (Or.inl (by omega)), hpf]
    rfl

/-- Claim C4, counterexample to the original claim: with batch size 1, a
file lacking adresNo aborts the whole run: the following fault-free file
is never inserted, no progress event is emitted, and the run ends with a
run-level error event, contradicting that a missing-key failure stays
confined to the failing file. -/
theorem missing_key_not_file_scoped_cex :
    (Worker.run 1 [missingKeyFile, okFile] stW).finishedEvents = [Msg.runError] ∧
    Msg.runError ∈ (Worker.run 1 [missingKeyFile, okFile] stW).errorLog ∧
    (7 : Int) ∉ (Worker.run 1 [missingKeyFile, okFile] stW).store ∧
    (Worker.run 1 [missingKeyFile, okFile] stW).progressEvents = [] := by decide

theorem missing_key_aborts_run_witness :
    (missingKeyFile.content = FileContent.missingAdres) ∧
    ((missingKeyFile.content = FileContent.missingAdres →
        process_file stW missingKeyFile = (stW, [], some (Exc.keyErr "adresNo"))) ∧
      (missingKeyFile.content = FileContent.missingAcik →
        process_file stW missingKeyFile = (stW, [], some (Exc.keyErr "acikAdresModel"))) ∧
      (∀ s, (Exc.keyErr s).fileScoped = false) ∧
      (missingKeyFile.content = FileContent.missingAdres →
        Worker.run 1 (missingKeyFile :: [okFile]) stW =
          runAbort { stW with duplicates := [] })) :=
  ⟨by decide, missing_key_aborts_run stW missingKeyFile [okFile]⟩

/-- Claim C5: for every file list of length N processed with batch size
B at least 1, when no file raises an exception that escapes process_file,
exactly (N + B - 1) / B progress events are emitted, the k-th carrying
the cumulative count min (B * (k + 1)) N of files finished so far over
the total N. -/
theorem progress_events_ceil (B : Nat) (hB : 1 ≤ B) (fs : List FileSpec) (st : St)
    (hok : ∀ f ∈ fs, FileOk f) (h0 : st.progressEvents = []) :
    (Worker.run B fs st).progressEvents =
      (List.range ((fs.length + B - 1) / B)).map
        (fun k => (min (B * (k + 1)) fs.length, fs.length)) ∧
    (Worker.run B fs st).progressEvents.length = (fs.length + B - 1) / B := by
  have h := run_progressEvents B hB fs st hok
  rw [h0, List.nil_append] at h
  exact ⟨h, by rw [h]; simp⟩

theorem progress_events_ceil_witness :
    (1 ≤ 2 ∧ (∀ f ∈ [dupFile, badFile, okFile], FileOk f) ∧ stW.progressEvents = []) ∧
    ((Worker.run 2 [dupFile, badFile, okFile] stW).progressEvents =
      (List.range (([dupFile, badFile, okFile].length + 2 - 1) / 2)).map
        (fun k => (min (2 * (k + 1)) [dupFile, badFile, okFile].length,
          [dupFile, badFile, okFile].length)) ∧
     (Worker.run 2 [dupFile, badFile, okFile] stW).progressEvents.length =
       ([dupFile, badFile, okFile].length + 2 - 1) / 2) :=
  ⟨⟨by decide, by decide, by decide⟩,
   progress_events_ceil 2 (by decide) [dupFile, badFile, okFile] stW (by decide) (by decide)⟩

/-- Claim C6: for every run containing a file with unreadable or
malformed JSON (all files free of escaping faults, the bad path unique to
unreadable files), the decode failure is logged with the file identity,
the file is retained on disk, and the run continues and completes: the
final progress event reports total over total and the final completion
event is the run summary. -/
theorem decode_error_logged_retained_run_completes (B : Nat) (hB : 1 ≤ B)
    (fs : List FileSpec) (st : St) (bad : FileSpec)
    (hok : ∀ f ∈ fs, FileOk f) (hmem : bad ∈ fs)
    (hc : bad.content = FileContent.unreadable)
    (hdisk : bad.path ∈ st.filesOnDisk)
    (hsame : ∀ f ∈ fs, f.path = bad.path → f.content = FileContent.unreadable)
    (h0 : st.progressEvents = []) :
    Msg.fileError bad.path ∈ (Worker.run B fs st).errorLog ∧
    bad.path ∈ (Worker.run B fs st).filesOnDisk ∧
    (Worker.run B fs st).progressEvents.getLast? = some (fs.length, fs.length) ∧
    (Worker.run B fs st).finishedEvents.getLast? =
      some (finalMsg (Worker.run B fs st).duplicates) := by
  refine ⟨?_, ?_, ?_, ?_⟩
  · rw [worker_run_ok B fs st hok]
    exact runLoop_log_unreadable B fs.length fs 0 0 { st with duplicates := [] } bad hok hmem hc
  · rw [worker_run_ok B fs st hok]
    exact runLoop_keeps_file B fs.length fs 0 0 none { st with duplicates := [] } bad.path
      hdisk hsame
  · exact run_progress_last B hB fs st hok (List.ne_nil_of_mem hmem) h0
  · rw [worker_run_ok B fs st hok]
    show (_ ++ [finalMsg _]).getLast? = _
    rw [List.getLast?_concat]

theorem decode_error_logged_retained_run_completes_witness :
    (1 ≤ 500 ∧ (∀ f ∈ [badFile, okFile], FileOk f) ∧ badFile ∈ [badFile, okFile] ∧
      badFile.content = FileContent.unreadable ∧ badFile.path ∈ stW.filesOnDisk ∧
      (∀ f ∈ [badFile, okFile], f.path = badFile.path →
        f.content = FileContent.unreadable) ∧
      stW.progressEvents = []) ∧
    (Msg.fileError badFile.path ∈ (Worker.run 500 [badFile, okFile] stW).errorLog ∧
      badFile.path ∈ (Worker.run 500 [badFile, okFile] stW).filesOnDisk ∧
      (Worker.run 500 [badFile, okFile] stW).progressEvents.getLast? =
        some ([badFile, okFile].length, [badFile, okFile].length) ∧
      (Worker.run 500 [badFile, okFile] stW).finishedEvents.getLast? =
        some (finalMsg (Worker.run 500 [badFile, okFile] stW).duplicates)) :=
  ⟨⟨by decide, by decide, by decide, by decide, by decide, by decide, by decide⟩,
   decode_error_logged_retained_run_completes 500 (by decide) [badFile, okFile] stW badFile
     (by decide) (by decide) (by decide) (by decide) (by decide) (by decide)⟩

/-- Claim C7: for every run that reaches its end, the final completion
event reports the duplicate count if and only if at least one duplicate
was recorded during the run, and otherwise reports plain success. -/
theorem completion_message_dup_iff (B : Nat) (fs : List FileSpec) (st : St)
    (hok : ∀ f ∈ fs, FileOk f) :
    (Worker.run B fs st).finishedEvents.getLast? =
      some (if (Worker.run B fs st).duplicates.isEmpty then Msg.allOk
            else Msg.dupReport (Worker.run B fs st).duplicates.length) := by
  rw [worker_run_ok B fs st hok]
  show (_ ++ [finalMsg _]).getLast? = _
  rw [List.getLast?_concat]
  rfl

theorem completion_message_dup_iff_witness :
    ((∀ f ∈ [dupFile, okFile], FileOk f) ∧
      (Worker.run 500 [dupFile, okFile] stW).duplicates = ["a.json"] ∧
      (Worker.run 500 [okFile] stW).duplicates = []) ∧
    ((Worker.run 500 [dupFile, okFile] stW).finishedEvents.getLast? =
      some (if (Worker.run 500 [dupFile, okFile] stW).duplicates.isEmpty then Msg.allOk
            else Msg.dupReport (Worker.run 500 [dupFile, okFile] stW).duplicates.length)) :=
  ⟨by decide, completion_message_dup_iff 500 [dupFile, okFile] stW (by decide)⟩

/-- Claim C8, amended: the progress and rate channels carry only
run-level outputs (process_file never emits on them), but the completion
channel also carries per-file failures: a caught file error emits an
error message on the finished channel, so a run can produce more than one
completion event. -/
theorem per_file_failure_on_finished_channel (st : St) (f : FileSpec) :
    (process_file st f).1.progressEvents = st.progressEvents ∧
    (process_file st f).1.rateEvents = st.rateEvents ∧
    (f.content = FileContent.unreadable →
      (process_file st f).1.finishedEvents = st.finishedEvents ++ [Msg.fileError f.path]) := by
  refine ⟨process_file_progressEvents st f, process_file_rateEvents st f, ?_⟩
  intro hc
  simp [process_file, hc, fileErrSt]

/-- Claim C8, counterexample to the original claim: a run over one
unreadable file and one good file emits two events on the completion
channel, the first being a per-file failure message, contradicting that a
run produces exactly one completion event with no per-file failure on any
channel. -/
theorem single_completion_event_cex :
    (Worker.run 500 [badFile, okFile] stW).finishedEvents =
      [Msg.fileError "b.json", Msg.allOk] := by decide

theorem per_file_failure_on_finished_channel_witness :
    (badFile.content = FileContent.unreadable) ∧
    ((process_file stW badFile).1.progressEvents = stW.progressEvents ∧
      (process_file stW badFile).1.rateEvents = stW.rateEvents ∧
      (badFile.content = FileContent.unreadable →
        (process_file stW badFile).1.finishedEvents =
          stW.finishedEvents ++ [Msg.fileError badFile.path])) :=
  ⟨by decide, per_file_failure_on_finished_channel stW badFile⟩

/-- Claim C9: for every file whose row insert has committed but whose
source-file deletion fails, the failure is non-fatal and file-scoped: the
committed row remains in storage, the file stays on disk, the failure is
logged, no exception escapes process_file, and the file counts as ok for
the batch and run to continue. -/
theorem disposal_failure_nonfatal (st : St) (f : FileSpec) (key : Int)
    (hc : f.content = FileContent.record key) (h1 : f.checkFault = false)
    (h2 : f.insertFault = false) (h3 : f.removeFault = true) (hk : key ∉ st.store) :
    key ∈ (process_file st f).1.store ∧
    (process_file st f).1.filesOnDisk = st.filesOnDisk ∧
    Msg.fileError f.path ∈ (process_file st f).1.errorLog ∧
    (process_file st f).2.2 = none ∧
    FileOk f := by
  refine ⟨?_, ?_, ?_, ?_, ?_⟩ <;>
    simp [process_file, hc, h1, h2, h3, hk, fileErrSt, FileOk]

theorem disposal_failure_nonfatal_witness :
    (removeFaultFile.content = FileContent.record 7 ∧
      removeFaultFile.checkFault = false ∧ removeFaultFile.insertFault = false ∧
      removeFaultFile.removeFault = true ∧ (7 : Int) ∉ stW.store) ∧
    ((7 : Int) ∈ (process_file stW removeFaultFile).1.store ∧
      (process_file stW removeFaultFile).1.filesOnDisk = stW.filesOnDisk ∧
      Msg.fileError removeFaultFile.path ∈ (process_file stW removeFaultFile).1.errorLog ∧
      (process_file stW removeFaultFile).2.2 = none ∧
      FileOk removeFaultFile) :=
  ⟨by decide,
   disposal_failure_nonfatal stW removeFaultFile 7 (by decide) (by decide) (by decide)
     (by decide) (by decide)⟩

/-- Claim C10: the cumulative count of a progress event advances by the
full batch regardless of per-file outcomes: duplicates and caught
file-scoped failures count as completed, so when the run completes
normally the final progress event always reports total over total. -/
theorem final_progress_counts_all_files (B : Nat) (hB : 1 ≤ B) (fs : List FileSpec)
    (st : St) (hok : ∀ f ∈ fs, FileOk f) (hne : fs ≠ []) (h0 : st.progressEvents = []) :
    (Worker.run B fs st).progressEvents.getLast? = some (fs.length, fs.length) :=
  run_progress_last B hB fs st hok hne h0

theorem final_progress_counts_all_files_witness :
    (1 ≤ 2 ∧ (∀ f ∈ [dupFile, badFile, okFile], FileOk f) ∧
      ([dupFile, badFile, okFile] : List FileSpec) ≠ [] ∧ stW.progressEvents = []) ∧
    (Worker.run 2 [dupFile, badFile, okFile] stW).progressEvents.getLast? =
      some ([dupFile, badFile, okFile].length, [dupFile, badFile, okFile].length) :=
  ⟨⟨by decide, by decide, by decide, by decide⟩,
   final_progress_counts_all_files 2 (by decide) [dupFile, badFile, okFile] stW
     (by decide) (by decide) (by decide)⟩
